import Mathlib

/-!
Verification of the FastClusterWrapper centroid-linkage pipeline.

Shallow embedding of `Sources/FastClusterWrapper/FastClusterWrapper.cpp`
(the centroid dissimilarity model, the SciPy dendrogram encoder, and the
C boundary `fastcluster_compute_centroid_linkage`), together with the
parts of the engine contract that the wrapper relies on.

Machine doubles are modelled by the type `F`: either a finite value
(an exact rational) or NaN.  NaN is absorbing for the arithmetic used by
the code (`x != x` is the NaN test, matching `fc_isnan`).  Infinities are
not modelled; none of the verified properties concern them.
-/

/-- Model of a C `double` as used by this code: a finite value (exact
rational, ignoring rounding) or NaN.  NaN propagates through every
arithmetic operation, as in IEEE. -/
inductive F where
  | fin (q : ℚ)
  | nan
deriving DecidableEq, Repr

namespace F

def add : F → F → F
  | fin a, fin b => fin (a + b)
  | _, _ => nan

def sub : F → F → F
  | fin a, fin b => fin (a - b)
  | _, _ => nan

def mul : F → F → F
  | fin a, fin b => fin (a * b)
  | _, _ => nan

/-- Division; division by (exact) zero is not a finite value, modelled as NaN
(the code never divides by zero on the verified paths). -/
def div : F → F → F
  | fin a, fin b => if b = 0 then nan else fin (a / b)
  | _, _ => nan

instance : Add F := ⟨F.add⟩
instance : Sub F := ⟨F.sub⟩
instance : Mul F := ⟨F.mul⟩
instance : Div F := ⟨F.div⟩

/-- Model of `fc_isnan(X)`, i.e. `X != X`. -/
def isnan : F → Bool
  | fin _ => false
  | nan => true

/-- Strict `<` on doubles: false whenever either side is NaN. -/
def blt : F → F → Bool
  | fin a, fin b => decide (a < b)
  | _, _ => false

theorem add_def (a b : ℚ) : (fin a + fin b) = fin (a + b) := rfl

theorem nan_add (x : F) : (nan + x) = nan := by cases x <;> rfl

theorem add_nan (x : F) : (x + nan) = nan := by cases x <;> rfl

theorem sub_nan (x : F) : (x - nan) = nan := by cases x <;> rfl

theorem nan_sub (x : F) : (nan - x) = nan := by cases x <;> rfl

theorem nan_mul (x : F) : (nan * x) = nan := by cases x <;> rfl

theorem mul_comm (x y : F) : x * y = y * x := by
  cases x <;> cases y <;> try rfl
  exact congrArg fin (Rat.mul_comm _ _)

end F

/-- Exception model for the C++ boundary (`try`/`catch` clauses of
`fastcluster_compute_centroid_linkage`): an `std::bad_alloc`, the library's
`nan_error`, any other exception derived from `std::exception`, or a thrown
value not derived from `std::exception`. -/
inductive CppExn where
  | badAlloc
  | nanError
  | otherStd
  | nonStd
deriving DecidableEq, Repr

/-- State of `CentroidDissimilarity`: the immutable input matrix (row-major,
read as a total function, out-of-range reads yielding `0` stand in for
arbitrary memory and are never relied upon), the dimension, the leaf count,
the centroid storage (zero-initialised, one vector of length `dimension` per
internal node, indexed by `index - count`), and the member counts
(`2*count - 1` slots, leaves initialised to `1`, the rest to `0`). -/
structure CDState where
  data : Nat → F
  dimension : Nat
  count : Nat
  centroidStorage : Nat → F
  members : Nat → Nat

namespace CDState

/-- The `CentroidDissimilarity` constructor: zero-filled centroid storage,
member count 1 for every leaf `i < count`, 0 elsewhere. -/
def init (input : Nat → F) (sampleCount dim : Nat) : CDState :=
  { data := input
    dimension := dim
    count := sampleCount
    centroidStorage := fun _ => F.fin 0
    members := fun v => if v < sampleCount then 1 else 0 }

/-- Read `basePointer(index)[k]`: coordinate `k` of leaf `index`. -/
def basePtr (st : CDState) (index k : Nat) : F :=
  st.data (index * st.dimension + k)

/-- Read `extendedPointer(index)[k]`: coordinate `k` of node `index` in the
unified index space (leaf if `index < count`, else centroid storage). -/
def extendedPtr (st : CDState) (index k : Nat) : F :=
  if index < st.count then st.basePtr index k
  else st.centroidStorage ((index - st.count) * st.dimension + k)

/-- The squared-distance accumulation loop:
`sum += diff * diff` over `k = 0, …, dimension-1`, in index-ascending
order, starting from `0`. -/
def sqsum (p q : Nat → F) (dim : Nat) : F :=
  (List.range dim).foldl (fun s k => s + (p k - q k) * (p k - q k)) (F.fin 0)

/-- The method `sqeuclidean<checkNaN>(i, j)`: squared Euclidean distance between two
leaves; when `checkNaN` is set, a NaN sum raises `nan_error`. -/
def sqeuclidean (checkNaN : Bool) (st : CDState) (i j : Nat) :
    Except CppExn F :=
  let sum := sqsum (st.basePtr i) (st.basePtr j) st.dimension
  if checkNaN ∧ sum.isnan then .error .nanError else .ok sum

/-- The method `sqeuclidean_extended(i, j)`: squared Euclidean distance between any two
nodes of the unified index space; always raises `nan_error` on a NaN sum. -/
def sqeuclidean_extended (st : CDState) (i j : Nat) : Except CppExn F :=
  let sum := sqsum (st.extendedPtr i) (st.extendedPtr j) st.dimension
  if sum.isnan then .error .nanError else .ok sum

/-- The method `merge(i, j, newNode)`: writes the member-count-weighted average of the
two parents' representative vectors into `newNode`'s centroid slot
(`pn[k] = (pi[k]*mi + pj[k]*mj) / (mi + mj)` for `k < dimension`) and sets
`members[newNode] = members[i] + members[j]`. -/
def merge (st : CDState) (i j newNode : Nat) : CDState :=
  let mi : F := .fin (st.members i)
  let mj : F := .fin (st.members j)
  let denom : F := mi + mj
  let off := (newNode - st.count) * st.dimension
  { st with
    centroidStorage := fun idx =>
      if off ≤ idx ∧ idx < off + st.dimension then
        (st.extendedPtr i (idx - off) * mi + st.extendedPtr j (idx - off) * mj) / denom
      else st.centroidStorage idx
    members := fun v =>
      if v = newNode then st.members i + st.members j else st.members v }

/-- The method `merge_weighted(i, j, newNode)`: unweighted midpoint update
(`pn[k] = 0.5 * (pi[k] + pj[k])`), member count as in `merge`. -/
def merge_weighted (st : CDState) (i j newNode : Nat) : CDState :=
  let off := (newNode - st.count) * st.dimension
  { st with
    centroidStorage := fun idx =>
      if off ≤ idx ∧ idx < off + st.dimension then
        F.fin (1/2 : ℚ) * (st.extendedPtr i (idx - off) + st.extendedPtr j (idx - off))
      else st.centroidStorage idx
    members := fun v =>
      if v = newNode then st.members i + st.members j else st.members v }

end CDState

/-- One merge event of the engine's `cluster_result` buffer: the `node`
record (`node1`, `node2`, `dist`). -/
structure MergeEvent where
  n1 : Nat
  n2 : Nat
  dist : F
deriving DecidableEq, Repr

/-- One 4-column row of the SciPy dendrogram output buffer:
`[id1, id2, distance, size]` (the ids are written as doubles by a
`static_cast`; they are kept as naturals here, the cast being injective on
the index range). -/
structure Row where
  id1 : Nat
  id2 : Nat
  dist : F
  size : F
deriving DecidableEq, Repr

instance : Inhabited Row := ⟨⟨0, 0, F.fin 0, F.fin 0⟩⟩

/-- Modelled from the spec: the `union_find` structure of
`fastcluster_internal.hpp` (not under `src/`).  Per the spec, it maps each
element of the index space to its current set representative; `Union`
merges the two classes "under the new internal node's identity" (the
`nextparent` counter of the engine assigns `N`, `N+1`, … to successive
unions).  Modelled extensionally as the representative map itself. -/
structure UF where
  rep : Nat → Nat

/-- Freshly constructed union-find: every element is its own
representative. -/
def UF.init : UF := ⟨fun v => v⟩

/-- The operation `Find(idx)`: the current representative (path compression does not
change the answer, only the cost, so it is not modelled). -/
def UF.find (u : UF) (v : Nat) : Nat := u.rep v

/-- The operation `Union(node1, node2)` with next fresh parent `newNode`: both classes
become represented by `newNode`. -/
def UF.union (u : UF) (a b newNode : Nat) : UF :=
  ⟨fun v => if u.rep v = u.rep a ∨ u.rep v = u.rep b then newNode else u.rep v⟩

/-- Modelled from the spec: `std::stable_sort(Z2[0], Z2[N-1])` with the
`node` comparator `a.dist < b.dist` (from `fastcluster_internal.hpp`, not
under `src/`).  Stable sorting has a unique result — the non-decreasing
reordering in which ties keep their original order — realised here by
stable insertion: an element is inserted after every earlier element whose
key is not strictly greater. -/
def stableInsert (x : MergeEvent) : List MergeEvent → List MergeEvent
  | [] => [x]
  | y :: ys => if y.dist.blt x.dist then y :: stableInsert x ys else x :: y :: ys

/-- Stable insertion sort keyed on `dist`; the model of `std::stable_sort`. -/
def stableSortByDist : List MergeEvent → List MergeEvent
  | [] => []
  | x :: xs => stableInsert x (stableSortByDist xs)

/-- The writer `LinkageOutput::append(node1, node2, distance, size)`: the smaller
index is written first. -/
def appendRow (node1 node2 : Nat) (distance size : F) : Row :=
  if node1 < node2 then ⟨node1, node2, distance, size⟩
  else ⟨node2, node1, distance, size⟩

/-- The size contribution of one side of a merge:
`(node < N) ? 1 : Z_(node - N, 3)` — a leaf counts 1, an internal node
reads the size column of the row previously emitted for it.  Reading a row
that has not been emitted yet models the source's unchecked read of
not-yet-written output memory; it returns the default row. -/
def sideSize (N : Nat) (rows : List Row) (nd : Nat) : F :=
  if nd < N then F.fin 1 else (rows.getD (nd - N) default).size

/-- The walk of `generateSciPyDendrogram` in the `sorted = true`
instantiation: each event's raw `node1`/`node2` are emitted as they are,
with the size column computed from the already-written rows. -/
def encodeTrueGo (N : Nat) : List MergeEvent → List Row → List Row
  | [], rows => rows
  | e :: l, rows =>
      encodeTrueGo N l
        (rows ++ [appendRow e.n1 e.n2 e.dist
          (sideSize N rows e.n1 + sideSize N rows e.n2)])

/-- The walk of `generateSciPyDendrogram` in the `sorted = false`
instantiation: each event's indices are first resolved to their current
union-find representatives, the classes are then unioned under the next
internal node's identity (`N + `number of rows already emitted), and the
row is emitted with the resolved indices. -/
def encodeFalseGo (N : Nat) : List MergeEvent → List Row → UF → List Row
  | [], rows, _ => rows
  | e :: l, rows, uf =>
      encodeFalseGo N l
        (rows ++ [appendRow (uf.find e.n1) (uf.find e.n2) e.dist
          (sideSize N rows (uf.find e.n1) + sideSize N rows (uf.find e.n2))])
        (uf.union (uf.find e.n1) (uf.find e.n2) (N + rows.length))

/-- The encoder `generateSciPyDendrogram<sorted>(Z, Z2, N)`: when `sorted` is false the
events are first stable-sorted by distance and the walk performs the
union-find relabeling; when `sorted` is true the events are walked as
given, with no sort and no union-find. -/
def generateSciPyDendrogram (sorted : Bool) (events : List MergeEvent)
    (N : Nat) : List Row :=
  if sorted then encodeTrueGo N events []
  else encodeFalseGo N (stableSortByDist events) [] UF.init

/-- The status enum `fastcluster_wrapper_status` of
`FastClusterWrapper.h`. -/
inductive Status where
  | SUCCESS
  | INVALID_ARGUMENT
  | INDEX_OVERFLOW
  | OUTPUT_TOO_SMALL
  | ALLOCATION_FAILURE
  | RUNTIME_ERROR
  | UNKNOWN_ERROR
deriving DecidableEq, Repr

/-- The `catch` cascade of `fastcluster_compute_centroid_linkage`, in
source order: `std::bad_alloc`, then `nan_error`, then `std::exception`,
then `...`.  (An `std::bad_alloc` is also an `std::exception`, but the
first matching clause wins, as in C++.) -/
def boundaryCatch : CppExn → Status
  | .badAlloc => .ALLOCATION_FAILURE
  | .nanError => .RUNTIME_ERROR
  | .otherStd => .RUNTIME_ERROR
  | .nonStd => .UNKNOWN_ERROR

/-- Modelled from the spec: `MAX_INDEX` of `fastcluster_internal.hpp` (not
under `src/`), "the maximum representable index for the chosen index
width"; taken as the maximum of a 32-bit signed index.  No verified
property depends on its exact value. -/
def MAX_INDEX : Nat := 2147483647

/-- All ordered pairs of a list, first component earlier in the list. -/
def pairsOf : List Nat → List (Nat × Nat)
  | [] => []
  | x :: xs => xs.map (fun y => (x, y)) ++ pairsOf xs

/-- Modelled from the spec: the engine's distance scan.  Evaluates the
dissimilarity (which is the `src`-defined `sqeuclidean_extended`) on each
candidate pair, aborting eagerly at the first failure — per the spec,
numeric errors are "detected eagerly at the point of occurrence" and abort
the whole call. -/
def collectDistances (st : CDState) :
    List (Nat × Nat) → Except CppExn (List (Nat × Nat × F))
  | [] => .ok []
  | p :: ps =>
      match st.sqeuclidean_extended p.1 p.2 with
      | .error e => .error e
      | .ok d =>
          match collectDistances st ps with
          | .error e => .error e
          | .ok rest => .ok ((p.1, p.2, d) :: rest)

/-- Modelled from the spec: greedy nearest-pair selection ("greedy
nearest-pair selection is standard for centroid linkage", §4.3), with ties
broken in favour of the earliest candidate — a deterministic rule, per the
spec's determinism requirement. -/
def minCand (c : Nat × Nat × F) : List (Nat × Nat × F) → Nat × Nat × F
  | [] => c
  | d :: ds => if d.2.2.blt c.2.2 then minCand d ds else minCand c ds

/-- Modelled from the spec (§4.3): one engine step.  Scans all active
pairs, picks the closest, emits the merge event, updates the centroid
state via the `src`-defined `merge`, retires the two parents and activates
the new internal node. -/
def engineStep (st : CDState) (active : List Nat) (newNode : Nat) :
    Except CppExn (MergeEvent × CDState × List Nat) :=
  match collectDistances st (pairsOf active) with
  | .error e => .error e
  | .ok [] => .error .otherStd
  | .ok (c :: cs) =>
      let (i, j, d) := minCand c cs
      .ok (⟨i, j, d⟩, st.merge i j newNode,
           (active.filter (fun v => v ≠ i ∧ v ≠ j)) ++ [newNode])

/-- Modelled from the spec (§4.3): the engine's main loop, producing one
merge event per remaining step; internal node indices are assigned
sequentially starting at `N`. -/
def engineLoop (N : Nat) : Nat → Nat → CDState → List Nat →
    List MergeEvent → Except CppExn (List MergeEvent)
  | 0, _, _, _, acc => .ok acc
  | steps + 1, t, st, active, acc =>
      match engineStep st active (N + t) with
      | .error e => .error e
      | .ok (e, st', act') => engineLoop N steps (t + 1) st' act' (acc ++ [e])

/-- Modelled from the spec (§4.3): `generic_linkage_vector_alternative`
(not under `src/`), as the contract describes it — exactly `N − 1` merge
events over the unified index space, internal indices sequential from `N`,
every distance evaluated through the dissimilarity model. -/
def engineRun (st0 : CDState) (N : Nat) : Except CppExn (List MergeEvent) :=
  engineLoop N (N - 1) 0 st0 (List.range N) []

/-- The body of the `try` block: build the dissimilarity state, run the
engine, apply `postprocess` (`result.sqrt()`, here an arbitrary fixed
square-root map `sqrtFn` on the stored distances, since the exact binary
double square root has no exact rational counterpart), then encode with
`generateSciPyDendrogram<true>`. -/
def tryBlock (sqrtFn : F → F) (input : Nat → F) (N dim : Nat) :
    Except CppExn (List Row) :=
  match engineRun (CDState.init input N dim) N with
  | .error e => .error e
  | .ok events =>
      .ok (generateSciPyDendrogram true
        (events.map (fun e => { e with dist := sqrtFn e.dist })) N)

/-- The boundary `fastcluster_compute_centroid_linkage`.  The two pointer arguments are
modelled as `Option` values (`none` = null); the second component of the
result is the content written to the output buffer (empty on every
non-success path, where the source writes nothing). -/
def fastcluster_compute_centroid_linkage (sqrtFn : F → F)
    (data : Option (List F)) (pointCount dimension : Nat)
    (dendrogramOut : Option Unit) (dendrogramLength : Nat) :
    Status × List Row :=
  if data = none ∨ dendrogramOut = none then (.INVALID_ARGUMENT, [])
  else if pointCount = 0 then (.SUCCESS, [])
  else if dimension = 0 then (.INVALID_ARGUMENT, [])
  else if MAX_INDEX < pointCount ∨ MAX_INDEX < dimension then
    (.INDEX_OVERFLOW, [])
  else if dendrogramLength < (if 1 < pointCount then (pointCount - 1) * 4 else 0) then
    (.OUTPUT_TOO_SMALL, [])
  else if pointCount = 1 then (.SUCCESS, [])
  else
    match tryBlock sqrtFn (fun idx => (data.getD []).getD idx (F.fin 0))
        pointCount dimension with
    | .ok rows => (.SUCCESS, rows)
    | .error e => (boundaryCatch e, [])

/-- The parent references consumed by a merge-event sequence, in
consumption order. -/
def parentsList (events : List MergeEvent) : List Nat :=
  events.flatMap (fun e => [e.n1, e.n2])

/-- Modelled from the spec (§3, §4.3): the contract on the engine's merge
event sequence for `N` leaves — exactly `N − 1` events, the `t`-th event
referencing only nodes that exist at that point (`< N + t`, internal
indices being assigned sequentially from `N`), and every node consumed as
a parent at most once. -/
structure ValidMergeSeq (N : Nat) (events : List MergeEvent) : Prop where
  two_le : 2 ≤ N
  length_eq : events.length = N - 1
  refs_lt : ∀ t (h : t < events.length),
    (events.get ⟨t, h⟩).n1 < N + t ∧ (events.get ⟨t, h⟩).n2 < N + t
  nodup : (parentsList events).Nodup

/-- One step of the sizes fold: the abstract counterpart of one output
row's size computation, over plain naturals. -/
def sizeStep (N : Nat) (acc : List Nat) (e : MergeEvent) : List Nat :=
  acc ++ [(if e.n1 < N then 1 else acc.getD (e.n1 - N) 0)
          + (if e.n2 < N then 1 else acc.getD (e.n2 - N) 0)]

/-- The subtree sizes of the internal nodes created by a merge-event
sequence, in creation order (entry `t` is the size of node `N + t`). -/
def internalSizes (N : Nat) (events : List MergeEvent) : List Nat :=
  events.foldl (sizeStep N) []

/-- Subtree size of any node in the unified index space: leaves count 1,
internal node `N + t` reads entry `t` of `internalSizes`. -/
def nodeSize (N : Nat) (events : List MergeEvent) (v : Nat) : Nat :=
  if v < N then 1 else (internalSizes N events).getD (v - N) 0

/-- The parents consumed by the first `t` events. -/
def consumedBy (events : List MergeEvent) (t : Nat) : List Nat :=
  parentsList (events.take t)

/-- The nodes alive after `t` events: the `N + t` nodes created so far,
minus the parents already consumed. -/
def availAt (N : Nat) (events : List MergeEvent) (t : Nat) : Finset Nat :=
  (Finset.range (N + t)).filter (fun v => v ∉ consumedBy events t)

/-- A concrete two-point, one-dimensional dissimilarity state with
coordinates 1 and 2, used to instantiate hypotheses. -/
def cdTest : CDState :=
  CDState.init (fun idx => [F.fin 1, F.fin 2].getD idx (F.fin 0)) 2 1

section Helpers

theorem appendRow_id1 (a b : Nat) (d s : F) :
    (appendRow a b d s).id1 = min a b := by
  unfold appendRow
  by_cases h : a < b
  · simp [h, Nat.min_eq_left (Nat.le_of_lt h)]
  · simp [h, Nat.min_eq_right (Nat.le_of_not_lt h)]

theorem appendRow_id2 (a b : Nat) (d s : F) :
    (appendRow a b d s).id2 = max a b := by
  unfold appendRow
  by_cases h : a < b
  · simp [h, Nat.max_eq_right (Nat.le_of_lt h)]
  · simp [h, Nat.max_eq_left (Nat.le_of_not_lt h)]

theorem appendRow_dist (a b : Nat) (d s : F) :
    (appendRow a b d s).dist = d := by
  unfold appendRow; by_cases h : a < b <;> simp [h]

theorem appendRow_size (a b : Nat) (d s : F) :
    (appendRow a b d s).size = s := by
  unfold appendRow; by_cases h : a < b <;> simp [h]

theorem appendRow_lt (a b : Nat) (d s : F) (h : a ≠ b) :
    (appendRow a b d s).id1 < (appendRow a b d s).id2 := by
  rw [appendRow_id1, appendRow_id2]
  rcases Nat.lt_or_ge a b with hab | hab
  · simpa [Nat.min_eq_left hab.le, Nat.max_eq_right hab.le] using hab
  · have hba : b < a := Nat.lt_of_le_of_ne hab (fun hc => h hc.symm)
    simpa [Nat.min_eq_right hba.le, Nat.max_eq_left hba.le] using hba

/-- In a valid sequence, each event's two parents differ. -/
theorem ValidMergeSeq.event_ne {N : Nat} {events : List MergeEvent}
    (hv : ValidMergeSeq N events) : ∀ e ∈ events, e.n1 ≠ e.n2 := by
  have h := hv.nodup
  clear hv
  induction events with
  | nil => intro e he; cases he
  | cons a l ih =>
      intro e he
      have hcons : (parentsList (a :: l)) = a.n1 :: a.n2 :: parentsList l := by
        simp [parentsList, List.flatMap_cons]
      rw [hcons] at h
      rcases List.mem_cons.mp he with he2 | he2
      · subst he2
        intro hc
        exact (List.nodup_cons.mp h).1 (by simp [hc])
      · exact ih ((List.nodup_cons.mp (List.nodup_cons.mp h).2).2) e he2

end Helpers

/-- The `sorted = true` walk projects to the raw events: in this mode the
encoder emits each event's own indices (smaller first) and distance, in the
order given. -/
theorem encodeTrueGo_map (N : Nat) (l : List MergeEvent) (rows : List Row) :
    (encodeTrueGo N l rows).map (fun r => (r.id1, r.id2, r.dist))
      = rows.map (fun r => (r.id1, r.id2, r.dist))
        ++ l.map (fun e => (min e.n1 e.n2, max e.n1 e.n2, e.dist)) := by
  induction l generalizing rows with
  | nil => simp [encodeTrueGo]
  | cons e l ih =>
      rw [encodeTrueGo, ih]
      simp [appendRow_id1, appendRow_id2, appendRow_dist]

/-- C1 (amended): `fastcluster_compute_centroid_linkage` invokes
`generateSciPyDendrogram<true>`, the pre-sorted mode, and that mode
performs no stable sort and no union-find resolution: it emits the engine's
events in their given order with their given indices (the smaller written
first), trusting the engine's output as already canonical.  The stable
sort and union-find relabeling exist only in the `sorted = false` mode,
which this program never invokes. -/
theorem C1_sorted_mode_trusts_engine (events : List MergeEvent) (N : Nat) :
    (generateSciPyDendrogram true events N).map (fun r => (r.id1, r.id2, r.dist))
      = events.map (fun e => (min e.n1 e.n2, max e.n1 e.n2, e.dist)) := by
  unfold generateSciPyDendrogram
  simpa using encodeTrueGo_map N events []

/-- C1 (counterexample): a merge-event sequence conforming to the engine
contract but not sorted by distance, on which the program's encoder mode
(`sorted = true`, the one invoked on every valid input) differs from the
stable-sort-plus-union-find pass the claim describes (the `sorted = false`
mode); in particular the emitted distance column is not non-decreasing. -/
theorem C1_counterexample :
    ValidMergeSeq 3 [⟨0, 1, F.fin 4⟩, ⟨3, 2, F.fin 3⟩]
      ∧ generateSciPyDendrogram true [⟨0, 1, F.fin 4⟩, ⟨3, 2, F.fin 3⟩] 3
          ≠ generateSciPyDendrogram false [⟨0, 1, F.fin 4⟩, ⟨3, 2, F.fin 3⟩] 3
      ∧ ¬ ((generateSciPyDendrogram true
            [⟨0, 1, F.fin 4⟩, ⟨3, 2, F.fin 3⟩] 3).map Row.dist).Pairwise
            (fun a b => F.blt b a = false) := by
  refine ⟨⟨by decide, by decide, by decide, by decide⟩, ?_, by decide⟩
  intro hEq
  exact absurd (congrArg (List.map Row.id1) hEq) (by decide)

/-- C3: `merge(i, j, new_index)` stores, componentwise for every dimension
`k < D`, the member-count-weighted average
`(w_i * rep_i + w_j * rep_j) / (w_i + w_j)` of the two parents'
representative vectors into the new node's centroid (readable through the
unified index space), and sets the new node's member count to
`w_i + w_j`. -/
theorem C3_merge_centroid_weighted_average (st : CDState) (i j newNode k : Nat)
    (hnew : st.count ≤ newNode) (hk : k < st.dimension) :
    (st.merge i j newNode).extendedPtr newNode k
        = (F.fin (st.members i) * st.extendedPtr i k
            + F.fin (st.members j) * st.extendedPtr j k)
            / F.fin ((st.members i + st.members j : Nat) : ℚ)
      ∧ (st.merge i j newNode).members newNode
          = st.members i + st.members j := by
  constructor
  · have hnot : ¬ newNode < st.count := Nat.not_lt.mpr hnew
    have hcond : (newNode - st.count) * st.dimension
          ≤ (newNode - st.count) * st.dimension + k
        ∧ (newNode - st.count) * st.dimension + k
          < (newNode - st.count) * st.dimension + st.dimension :=
      ⟨Nat.le_add_right _ _, Nat.add_lt_add_left hk _⟩
    show CDState.extendedPtr _ _ _ = _
    rw [CDState.extendedPtr]
    simp only [CDState.merge, hnot, if_false, hcond, if_true, and_self,
      if_pos, Nat.add_sub_cancel_left]
    rw [F.mul_comm (st.extendedPtr i k), F.mul_comm (st.extendedPtr j k),
      F.add_def]
    norm_num
  · show (if newNode = newNode then _ else _) = _
    rw [if_pos rfl]

/-- C3 (witness): merging leaves 0 and 1 of `cdTest` stores the weighted
average centroid and member count 2. -/
theorem C3_witness :
    (cdTest.merge 0 1 2).extendedPtr 2 0
        = (F.fin (cdTest.members 0) * cdTest.extendedPtr 0 0
            + F.fin (cdTest.members 1) * cdTest.extendedPtr 1 0)
            / F.fin ((cdTest.members 0 + cdTest.members 1 : Nat) : ℚ)
      ∧ (cdTest.merge 0 1 2).members 2 = cdTest.members 0 + cdTest.members 1 :=
  C3_merge_centroid_weighted_average cdTest 0 1 2 0 (by decide) (by decide)

/-- Rows produced by the `sorted = true` walk have strictly ordered ids as
long as every event's two parents differ. -/
theorem encodeTrueGo_ids_lt (N : Nat) (l : List MergeEvent) (rows : List Row)
    (hl : ∀ e ∈ l, e.n1 ≠ e.n2) (hrows : ∀ r ∈ rows, r.id1 < r.id2) :
    ∀ r ∈ encodeTrueGo N l rows, r.id1 < r.id2 := by
  induction l generalizing rows with
  | nil => simpa [encodeTrueGo] using hrows
  | cons e l ih =>
      rw [encodeTrueGo]
      apply ih
      · intro x hx
        exact hl x (List.mem_cons_of_mem _ hx)
      · intro r hr
        rcases List.mem_append.mp hr with h | h
        · exact hrows r h
        · have he : r = appendRow e.n1 e.n2 e.dist
              (sideSize N rows e.n1 + sideSize N rows e.n2) := by
            simpa using h
          rw [he]
          exact appendRow_lt _ _ _ _ (hl e (List.mem_cons_self _ _))

/-- C5: every row emitted by the encoder (in the mode the program invokes,
on a contract-conforming engine sequence) has its first id strictly less
than its second: `LinkageOutput::append` writes the smaller index first. -/
theorem C5_first_id_lt_second (N : Nat) (events : List MergeEvent)
    (hv : ValidMergeSeq N events) :
    ∀ r ∈ generateSciPyDendrogram true events N, r.id1 < r.id2 := by
  unfold generateSciPyDendrogram
  simp only [if_true]
  exact encodeTrueGo_ids_lt N events [] hv.event_ne (by intro r hr; cases hr)

/-- C5 (witness): the first row of a concrete three-merge run has ordered
ids. -/
theorem C5_witness :
    ((generateSciPyDendrogram true
        [⟨0, 1, F.fin 1⟩, ⟨2, 3, F.fin 2⟩, ⟨4, 5, F.fin 9⟩] 4).get
        ⟨0, by decide⟩).id1
      < ((generateSciPyDendrogram true
        [⟨0, 1, F.fin 1⟩, ⟨2, 3, F.fin 2⟩, ⟨4, 5, F.fin 9⟩] 4).get
        ⟨0, by decide⟩).id2 := by
  have h := C5_first_id_lt_second 4
    [⟨0, 1, F.fin 1⟩, ⟨2, 3, F.fin 2⟩, ⟨4, 5, F.fin 9⟩]
    ⟨by decide, by decide, by decide, by decide⟩
  exact h _ (List.get_mem _ _ _)

/-- C6 (counterexample): with non-null pointers, `pointCount = 0` and
`dimension = 0`, the call returns `Success`, not `InvalidArgument`: the
empty-input success return precedes the dimension check. -/
theorem C6_counterexample :
    fastcluster_compute_centroid_linkage id (some []) 0 0 (some ()) 0
        = (.SUCCESS, [])
      ∧ Status.SUCCESS ≠ Status.INVALID_ARGUMENT :=
  ⟨by decide, by decide⟩

/-- C6 (amended): a call with `dimension = 0` returns `InvalidArgument`
provided `pointCount ≠ 0`; when `pointCount = 0` the empty-input success
path returns first. -/
theorem C6_dim_zero_invalid (sqrtFn : F → F) (data : Option (List F))
    (pointCount dimension : Nat) (out : Option Unit) (len : Nat)
    (hdim : dimension = 0) (hpc : pointCount ≠ 0) :
    (fastcluster_compute_centroid_linkage sqrtFn data pointCount dimension
        out len).1 = .INVALID_ARGUMENT := by
  subst hdim
  unfold fastcluster_compute_centroid_linkage
  by_cases h : data = none ∨ out = none
  · rw [if_pos h]
  · rw [if_neg h, if_neg hpc, if_pos rfl]

/-- C6 (witness): one point, dimension zero. -/
theorem C6_witness :
    (fastcluster_compute_centroid_linkage id (some [F.fin 0]) 1 0 (some ()) 0).1
      = Status.INVALID_ARGUMENT :=
  C6_dim_zero_invalid id (some [F.fin 0]) 1 0 (some ()) 0 rfl (by decide)

/-- C8: the whole computation is a function of its arguments — two calls
with identical input matrix, point count, dimension, output pointer and
buffer length return the same status and write the same output: the
source reads no global state and uses no nondeterministic construct. -/
theorem C8_determinism (sqrtFn : F → F)
    (dataA dataB : Option (List F)) (pcA pcB dimA dimB : Nat)
    (outA outB : Option Unit) (lenA lenB : Nat)
    (hdata : dataA = dataB) (hpc : pcA = pcB) (hdim : dimA = dimB)
    (hout : outA = outB) (hlen : lenA = lenB) :
    fastcluster_compute_centroid_linkage sqrtFn dataA pcA dimA outA lenA
      = fastcluster_compute_centroid_linkage sqrtFn dataB pcB dimB outB lenB := by
  subst hdata; subst hpc; subst hdim; subst hout; subst hlen; rfl

/-- C8 (witness): two identical calls on a concrete 4×2 matrix. -/
theorem C8_witness :
    fastcluster_compute_centroid_linkage id
        (some [F.fin 0, F.fin 0, F.fin 0, F.fin 1, F.fin 5, F.fin 5, F.fin 5, F.fin 6])
        4 2 (some ()) 12
      = fastcluster_compute_centroid_linkage id
        (some [F.fin 0, F.fin 0, F.fin 0, F.fin 1, F.fin 5, F.fin 5, F.fin 5, F.fin 6])
        4 2 (some ()) 12 :=
  C8_determinism id _ _ 4 4 2 2 _ _ 12 12 rfl rfl rfl rfl rfl

/-- C9: the null-pointer check precedes the empty-input success path: a
null `data` or `dendrogramOut` yields `InvalidArgument` for every
`pointCount`, including 0. -/
theorem C9_null_check_precedence (sqrtFn : F → F) (data : Option (List F))
    (pointCount dimension : Nat) (out : Option Unit) (len : Nat)
    (h : data = none ∨ out = none) :
    fastcluster_compute_centroid_linkage sqrtFn data pointCount dimension out len
      = (.INVALID_ARGUMENT, []) := by
  unfold fastcluster_compute_centroid_linkage
  rw [if_pos h]

/-- C9 (witness): null `data` with `pointCount = 0`. -/
theorem C9_witness :
    fastcluster_compute_centroid_linkage id none 0 3 (some ()) 7
      = (.INVALID_ARGUMENT, []) :=
  C9_null_check_precedence id none 0 3 (some ()) 7 (Or.inl rfl)

/-- C10: the boundary maps exceptions to statuses by type —
`std::bad_alloc` to `AllocationFailure`; the NaN error and every other
exception derived from `std::exception` to `RuntimeError`; and
`UnknownError` exactly for thrown values not derived from
`std::exception`.  Being a total function into the status enum, the
handler lets no exception propagate. -/
theorem C10_exception_mapping :
    boundaryCatch .badAlloc = .ALLOCATION_FAILURE
      ∧ boundaryCatch .nanError = .RUNTIME_ERROR
      ∧ boundaryCatch .otherStd = .RUNTIME_ERROR
      ∧ boundaryCatch .nonStd = .UNKNOWN_ERROR
      ∧ ∀ e : CppExn, boundaryCatch e = .UNKNOWN_ERROR ↔ e = .nonStd :=
  ⟨rfl, rfl, rfl, rfl, fun e => by cases e <;> simp [boundaryCatch]⟩

/-- An event's parent references are among the parents of its sequence. -/
theorem mem_parentsList {e : MergeEvent} {l : List MergeEvent} (he : e ∈ l) :
    e.n1 ∈ parentsList l ∧ e.n2 ∈ parentsList l := by
  constructor <;>
    · rw [parentsList, List.mem_flatMap]
      exact ⟨e, he, by simp⟩

/-- A stable sort leaves an already-sorted sequence unchanged. -/
theorem stableSortByDist_sorted_id (l : List MergeEvent)
    (h : l.Pairwise (fun a b => F.blt b.dist a.dist = false)) :
    stableSortByDist l = l := by
  induction l with
  | nil => rfl
  | cons x xs ih =>
      have hx := (List.pairwise_cons.mp h).1
      rw [stableSortByDist, ih (List.pairwise_cons.mp h).2]
      cases xs with
      | nil => rfl
      | cons y ys =>
          have hc : F.blt y.dist x.dist = false :=
            hx y (List.mem_cons_self y ys)
          simp [stableInsert, hc]

/-- When the union-find still maps every upcoming parent reference to
itself and no parent is referenced twice, the relabeling walk emits the
same rows as the trusting walk. -/
theorem encodeFalseGo_eq_trueGo (N : Nat) (l : List MergeEvent)
    (rows : List Row) (uf : UF)
    (hfind : ∀ e ∈ l, uf.find e.n1 = e.n1 ∧ uf.find e.n2 = e.n2)
    (hnodup : (parentsList l).Nodup) :
    encodeFalseGo N l rows uf = encodeTrueGo N l rows := by
  induction l generalizing rows uf with
  | nil => rfl
  | cons e l ih =>
      have hhead := hfind e (List.mem_cons_self e l)
      have hpl : parentsList (e :: l) = e.n1 :: e.n2 :: parentsList l := by
        simp [parentsList, List.flatMap_cons]
      rw [hpl] at hnodup
      have h1 : e.n1 ∉ parentsList l := by
        have := (List.nodup_cons.mp hnodup).1
        simp at this
        exact this.2
      have h2 : e.n2 ∉ parentsList l :=
        (List.nodup_cons.mp (List.nodup_cons.mp hnodup).2).1
      rw [encodeFalseGo, encodeTrueGo, hhead.1, hhead.2]
      apply ih
      · intro x hx
        have hxfind := hfind x (List.mem_cons_of_mem e hx)
        have hxp := mem_parentsList hx
        have hne1 : x.n1 ≠ e.n1 := fun hc => h1 (hc ▸ hxp.1)
        have hne2 : x.n1 ≠ e.n2 := fun hc => h2 (hc ▸ hxp.1)
        have hne3 : x.n2 ≠ e.n1 := fun hc => h1 (hc ▸ hxp.2)
        have hne4 : x.n2 ≠ e.n2 := fun hc => h2 (hc ▸ hxp.2)
        have hr1 : uf.rep x.n1 = x.n1 := hxfind.1
        have hr2 : uf.rep x.n2 = x.n2 := hxfind.2
        have he1 : uf.rep e.n1 = e.n1 := hhead.1
        have he2 : uf.rep e.n2 = e.n2 := hhead.2
        constructor <;>
          simp [UF.find, UF.union, hr1, hr2, he1, he2, hne1, hne2, hne3, hne4]
      · exact (List.nodup_cons.mp (List.nodup_cons.mp hnodup).2).2

/-- C7: on canonical input — a contract-conforming sequence already sorted
by non-decreasing distance, with each event's indices already its side's
representative and written smaller-first — the `sorted = false` pass
(stable sort plus union-find relabeling) reproduces the sequence
unchanged: it emits the same rows as the trusting walk, and the emitted
(id1, id2, distance) triples are exactly the input events. -/
theorem C7_encoder_idempotent_on_canonical (N : Nat) (events : List MergeEvent)
    (hv : ValidMergeSeq N events)
    (hsorted : events.Pairwise (fun a b => F.blt b.dist a.dist = false))
    (hcanon : ∀ e ∈ events, e.n1 < e.n2) :
    generateSciPyDendrogram false events N = generateSciPyDendrogram true events N
      ∧ (generateSciPyDendrogram false events N).map (fun r => (r.id1, r.id2, r.dist))
          = events.map (fun e => (e.n1, e.n2, e.dist)) := by
  have hfalse : generateSciPyDendrogram false events N
      = encodeFalseGo N events [] UF.init := by
    rw [generateSciPyDendrogram, if_neg (by simp),
      stableSortByDist_sorted_id events hsorted]
  have heq : generateSciPyDendrogram false events N
      = generateSciPyDendrogram true events N := by
    rw [hfalse, generateSciPyDendrogram, if_pos rfl]
    exact encodeFalseGo_eq_trueGo N events [] UF.init
      (fun e _ => ⟨rfl, rfl⟩) hv.nodup
  refine ⟨heq, ?_⟩
  rw [heq, generateSciPyDendrogram, if_pos rfl]
  have hmap := encodeTrueGo_map N events []
  simp only [List.map_nil, List.nil_append] at hmap
  rw [hmap]
  apply List.map_congr_left
  intro e he
  have h := hcanon e he
  rw [Nat.min_eq_left h.le, Nat.max_eq_right h.le]

theorem encodeTrueGo_length (N : Nat) (l : List MergeEvent) (rows : List Row) :
    (encodeTrueGo N l rows).length = rows.length + l.length := by
  induction l generalizing rows with
  | nil => simp [encodeTrueGo]
  | cons e l ih =>
      rw [encodeTrueGo, ih]
      simp
      omega

/-- Pointwise `getD` consequence of a sizes-column correspondence. -/
theorem map_size_getD : ∀ (rows : List Row) (sizes : List Nat) (i : Nat),
    rows.map Row.size = sizes.map (fun n : Nat => F.fin n) →
    (rows.getD i default).size = F.fin (sizes.getD i 0)
  | [], [], i, _ => by simp [default, instInhabitedRow]
  | [], s :: ss, i, h => by simp at h
  | r :: rs, [], i, h => by simp at h
  | r :: rs, s :: ss, 0, h => by
      simp only [List.map_cons, List.cons.injEq] at h
      simpa using h.1
  | r :: rs, s :: ss, i + 1, h => by
      simp only [List.map_cons, List.cons.injEq] at h
      simpa using map_size_getD rs ss i h.2

theorem fin_add_natCast (a b : Nat) :
    (F.fin a + F.fin b : F) = F.fin ((a + b : Nat) : ℚ) := by
  rw [F.add_def]
  norm_num

/-- A side's size contribution, through a sizes-column correspondence. -/
theorem sideSize_eq_fin (N : Nat) (rows : List Row) (sizes : List Nat) (x : Nat)
    (h : rows.map Row.size = sizes.map (fun n : Nat => F.fin n)) :
    sideSize N rows x
      = F.fin (((if x < N then 1 else sizes.getD (x - N) 0) : Nat) : ℚ) := by
  rw [sideSize]
  by_cases hx : x < N
  · simp [hx]
  · simp only [hx, if_false]
    exact map_size_getD rows sizes _ h

/-- The size column of the `sorted = true` walk is the `F`-image of the
abstract sizes fold. -/
theorem encodeTrueGo_size_map (N : Nat) (l : List MergeEvent)
    (rows : List Row) (sizes : List Nat)
    (h : rows.map Row.size = sizes.map (fun n : Nat => F.fin n)) :
    (encodeTrueGo N l rows).map Row.size
      = (l.foldl (sizeStep N) sizes).map (fun n : Nat => F.fin n) := by
  induction l generalizing rows sizes with
  | nil => simpa [encodeTrueGo] using h
  | cons e l ih =>
      rw [encodeTrueGo, List.foldl_cons]
      apply ih
      rw [sizeStep, List.map_append, List.map_append, h]
      congr 1
      simp only [List.map_cons, List.map_nil]
      rw [appendRow_size, sideSize_eq_fin N rows sizes e.n1 h,
        sideSize_eq_fin N rows sizes e.n2 h, fin_add_natCast]

theorem foldl_sizeStep_length (N : Nat) (l : List MergeEvent) (acc : List Nat) :
    (l.foldl (sizeStep N) acc).length = acc.length + l.length := by
  induction l generalizing acc with
  | nil => simp
  | cons e l ih =>
      rw [List.foldl_cons, ih]
      simp [sizeStep]
      omega

theorem internalSizes_length (N : Nat) (events : List MergeEvent) :
    (internalSizes N events).length = events.length := by
  rw [internalSizes, foldl_sizeStep_length]
  simp

theorem internalSizes_append (N : Nat) (l1 l2 : List MergeEvent) :
    internalSizes N (l1 ++ l2) = l2.foldl (sizeStep N) (internalSizes N l1) := by
  rw [internalSizes, internalSizes, List.foldl_append]

theorem foldl_sizeStep_extends (N : Nat) (l : List MergeEvent) (acc : List Nat) :
    acc <+: l.foldl (sizeStep N) acc := by
  induction l generalizing acc with
  | nil => exact List.prefix_refl acc
  | cons e l ih =>
      rw [List.foldl_cons]
      exact List.IsPrefix.trans (List.prefix_append acc _) (ih (sizeStep N acc e))

theorem internalSizes_take (N : Nat) (events : List MergeEvent) (t : Nat) :
    internalSizes N (events.take t) = (internalSizes N events).take t := by
  have happ : internalSizes N events
      = (events.drop t).foldl (sizeStep N) (internalSizes N (events.take t)) := by
    conv_lhs => rw [← List.take_append_drop t events]
    exact internalSizes_append N _ _
  have hpre : internalSizes N (events.take t) <+: internalSizes N events := by
    rw [happ]
    exact foldl_sizeStep_extends N _ _
  have hlen : (internalSizes N (events.take t)).length = min t events.length := by
    rw [internalSizes_length, List.length_take]
  rw [List.prefix_iff_eq_take.mp hpre, hlen]
  rcases Nat.le_total t events.length with h | h
  · rw [Nat.min_eq_left h]
  · rw [Nat.min_eq_right h, List.take_of_length_le (by rw [internalSizes_length]),
      List.take_of_length_le (by rw [internalSizes_length]; omega)]

theorem internalSizes_take_getD (N : Nat) (events : List MergeEvent) (t i : Nat)
    (hi : i < t) :
    (internalSizes N (events.take t)).getD i 0 = (internalSizes N events).getD i 0 := by
  rw [internalSizes_take, List.getD_eq_getElem?_getD, List.getD_eq_getElem?_getD,
    List.getElem?_take, if_pos hi]

/-- Entry `t` of the sizes fold is the sum of the two parents' subtree
sizes, provided the parents exist at step `t`. -/
theorem internalSizes_getD_step (N : Nat) (events : List MergeEvent) (t : Nat)
    (ht : t < events.length)
    (h1 : (events.get ⟨t, ht⟩).n1 < N + t)
    (h2 : (events.get ⟨t, ht⟩).n2 < N + t) :
    (internalSizes N events).getD t 0
      = nodeSize N events (events.get ⟨t, ht⟩).n1
        + nodeSize N events (events.get ⟨t, ht⟩).n2 := by
  have hconcat : events.take t ++ [events.get ⟨t, ht⟩] = events.take (t + 1) := by
    have h := List.take_concat_get events t ht
    rw [List.concat_eq_append] at h
    exact h
  have hfull : (internalSizes N events).getD t 0
      = (internalSizes N (events.take (t + 1))).getD t 0 :=
    (internalSizes_take_getD N events (t + 1) t (by omega)).symm
  have hlen : (internalSizes N (events.take t)).length = t := by
    rw [internalSizes_length, List.length_take, Nat.min_eq_left (by omega)]
  rw [hfull, ← hconcat, internalSizes_append, List.foldl_cons, List.foldl_nil,
    sizeStep, List.getD_append_right _ _ _ _ (by omega), hlen, Nat.sub_self]
  show ((if _ then _ else _) + (if _ then _ else _) : Nat) = _
  rw [nodeSize, nodeSize]
  congr 1
  · by_cases hn : (events.get ⟨t, ht⟩).n1 < N
    · rw [if_pos hn, if_pos hn]
    · rw [if_neg hn, if_neg hn]
      exact internalSizes_take_getD N events t _ (by omega)
  · by_cases hn : (events.get ⟨t, ht⟩).n2 < N
    · rw [if_pos hn, if_pos hn]
    · rw [if_neg hn, if_neg hn]
      exact internalSizes_take_getD N events t _ (by omega)

theorem parentsList_length (events : List MergeEvent) :
    (parentsList events).length = 2 * events.length := by
  induction events with
  | nil => rfl
  | cons e l ih =>
      have h : parentsList (e :: l) = e.n1 :: e.n2 :: parentsList l := by
        simp [parentsList, List.flatMap_cons]
      rw [h]
      simp only [List.length_cons, ih, List.length_cons]
      omega

theorem mem_consumedBy (events : List MergeEvent) (t : Nat) (x : Nat) :
    x ∈ consumedBy events t ↔
      ∃ s, ∃ hs : s < events.length, s < t ∧
        (x = (events.get ⟨s, hs⟩).n1 ∨ x = (events.get ⟨s, hs⟩).n2) := by
  rw [consumedBy, parentsList, List.mem_flatMap]
  constructor
  · rintro ⟨e, he, hx⟩
    rcases List.mem_take_iff_getElem.mp he with ⟨i, hm, hget⟩
    have hil : i < events.length := lt_of_lt_of_le hm (min_le_right _ _)
    refine ⟨i, hil, lt_of_lt_of_le hm (min_le_left _ _), ?_⟩
    simp only [List.mem_cons, List.mem_singleton, List.not_mem_nil, or_false] at hx
    have hge : events.get ⟨i, hil⟩ = e := by
      rw [← hget]
      simp [List.get_eq_getElem]
    rcases hx with hx | hx
    · exact Or.inl (by rw [hge, ← hx])
    · exact Or.inr (by rw [hge, ← hx])
  · rintro ⟨s, hs, hst, hx⟩
    refine ⟨events.get ⟨s, hs⟩, ?_, ?_⟩
    · apply List.mem_take_iff_getElem.mpr
      exact ⟨s, by omega, by simp [List.get_eq_getElem]⟩
    · rcases hx with hx | hx <;> simp [hx]

theorem consumedBy_nodup (events : List MergeEvent)
    (hnodup : (parentsList events).Nodup) (t : Nat) :
    (consumedBy events t).Nodup := by
  have hpre : consumedBy events t <+: parentsList events := by
    rw [consumedBy, parentsList]
    conv_rhs => rw [← List.take_append_drop t events, parentsList,
      List.flatMap_append]
    exact List.prefix_append _ _
  exact hnodup.sublist hpre.sublist

theorem consumedBy_succ (events : List MergeEvent) (t : Nat)
    (ht : t < events.length) :
    consumedBy events (t + 1)
      = consumedBy events t
        ++ [(events.get ⟨t, ht⟩).n1, (events.get ⟨t, ht⟩).n2] := by
  have hconcat : events.take t ++ [events.get ⟨t, ht⟩] = events.take (t + 1) := by
    have h := List.take_concat_get events t ht
    rw [List.concat_eq_append] at h
    exact h
  rw [consumedBy, consumedBy, ← hconcat, parentsList, List.flatMap_append]
  rfl

theorem consumedBy_lt (N : Nat) (events : List MergeEvent)
    (hv : ValidMergeSeq N events) (t x : Nat)
    (hx : x ∈ consumedBy events t) : x < N + t := by
  rcases (mem_consumedBy events t x).mp hx with ⟨s, hs, hst, hor⟩
  have h := hv.refs_lt s hs
  rcases hor with h1 | h1 <;> omega

/-- The two parents of event `t` are fresh: not consumed by any earlier
event. -/
theorem parents_fresh (N : Nat) (events : List MergeEvent)
    (hv : ValidMergeSeq N events) (t : Nat) (ht : t < events.length) :
    (events.get ⟨t, ht⟩).n1 ∉ consumedBy events t
      ∧ (events.get ⟨t, ht⟩).n2 ∉ consumedBy events t := by
  have hnd : (consumedBy events (t + 1)).Nodup :=
    consumedBy_nodup events hv.nodup (t + 1)
  rw [consumedBy_succ events t ht, List.nodup_append] at hnd
  constructor
  · intro hc
    exact absurd (List.mem_cons_self _ _) (hnd.2.2 hc)
  · intro hc
    exact absurd (by simp) (hnd.2.2 hc)

/-- Conservation: at every step the subtree sizes of the live nodes sum to
`N`. -/
theorem size_conservation (N : Nat) (events : List MergeEvent)
    (hv : ValidMergeSeq N events) :
    ∀ t, t ≤ events.length →
      ∑ v ∈ availAt N events t, nodeSize N events v = N := by
  intro t
  induction t with
  | zero =>
      intro _
      rw [availAt]
      have hset : (Finset.range (N + 0)).filter (fun v => v ∉ consumedBy events 0)
          = Finset.range N := by
        simp [consumedBy, parentsList]
      rw [hset, Finset.sum_congr rfl
        (fun v hvm => by rw [nodeSize, if_pos (Finset.mem_range.mp hvm)])]
      simp
  | succ t ih =>
      intro hts
      have ht : t < events.length := by omega
      have ihv := ih (by omega)
      have hab := hv.refs_lt t ht
      have hfresh := parents_fresh N events hv t ht
      have hne : (events.get ⟨t, ht⟩).n1 ≠ (events.get ⟨t, ht⟩).n2 :=
        hv.event_ne _ (List.get_mem events t ht)
      have hamem : (events.get ⟨t, ht⟩).n1 ∈ availAt N events t := by
        rw [availAt, Finset.mem_filter, Finset.mem_range]
        exact ⟨hab.1, hfresh.1⟩
      have hbmem : (events.get ⟨t, ht⟩).n2
          ∈ (availAt N events t).erase (events.get ⟨t, ht⟩).n1 := by
        rw [Finset.mem_erase]
        refine ⟨hne.symm, ?_⟩
        rw [availAt, Finset.mem_filter, Finset.mem_range]
        exact ⟨hab.2, hfresh.2⟩
      have hext : availAt N events (t + 1)
          = insert (N + t)
              (((availAt N events t).erase (events.get ⟨t, ht⟩).n1).erase
                (events.get ⟨t, ht⟩).n2) := by
        apply Finset.ext
        intro v
        rw [availAt, Finset.mem_insert, Finset.mem_erase, Finset.mem_erase,
          Finset.mem_filter, Finset.mem_range, availAt, Finset.mem_filter,
          Finset.mem_range, consumedBy_succ events t ht]
        simp only [List.mem_append, List.mem_cons, List.mem_singleton,
          List.not_mem_nil, or_false, not_or]
        constructor
        · rintro ⟨hvr, hvc, hv1, hv2⟩
          by_cases hvtop : v = N + t
          · exact Or.inl hvtop
          · exact Or.inr ⟨hv2, hv1, by omega, hvc⟩
        · rintro (hvtop | ⟨hv2, hv1, hvr, hvc⟩)
          · subst hvtop
            refine ⟨by omega, ?_, by omega, by omega⟩
            intro hc
            exact absurd (consumedBy_lt N events hv t _ hc) (by omega)
          · exact ⟨by omega, hvc, hv1, hv2⟩
      have htop_notmem : (N + t)
          ∉ ((availAt N events t).erase (events.get ⟨t, ht⟩).n1).erase
              (events.get ⟨t, ht⟩).n2 := by
        intro hc
        have h1 := Finset.mem_of_mem_erase (Finset.mem_of_mem_erase hc)
        rw [availAt, Finset.mem_filter, Finset.mem_range] at h1
        omega
      have htop_size : nodeSize N events (N + t)
          = nodeSize N events (events.get ⟨t, ht⟩).n1
            + nodeSize N events (events.get ⟨t, ht⟩).n2 := by
        rw [nodeSize, if_neg (by omega), Nat.add_sub_cancel_left]
        exact internalSizes_getD_step N events t ht hab.1 hab.2
      rw [hext, Finset.sum_insert htop_notmem, htop_size]
      have hsum1 := Finset.add_sum_erase (availAt N events t)
        (nodeSize N events) hamem
      have hsum2 := Finset.add_sum_erase ((availAt N events t).erase
        (events.get ⟨t, ht⟩).n1) (nodeSize N events) hbmem
      omega

/-- After all events of a valid sequence, the only live node is the root
`2N − 2`. -/
theorem availAt_final (N : Nat) (events : List MergeEvent)
    (hv : ValidMergeSeq N events) :
    availAt N events events.length = {2 * N - 2} := by
  have hN := hv.two_le
  have hlen := hv.length_eq
  have hplen : (parentsList events).length = 2 * events.length :=
    parentsList_length events
  have hconsfull : consumedBy events events.length = parentsList events := by
    rw [consumedBy, List.take_length]
  have hsub : (parentsList events).toFinset ⊆ Finset.range (2 * N - 2) := by
    intro x hx
    rw [List.mem_toFinset] at hx
    rw [← hconsfull] at hx
    rcases (mem_consumedBy events events.length x).mp hx with ⟨s, hs, _, hor⟩
    have h := hv.refs_lt s hs
    rw [Finset.mem_range]
    rcases hor with h1 | h1 <;> omega
  have hcard : (parentsList events).toFinset.card = 2 * N - 2 := by
    rw [List.toFinset_card_of_nodup hv.nodup, hplen, hlen]
    omega
  have hPeq : (parentsList events).toFinset = Finset.range (2 * N - 2) :=
    Finset.eq_of_subset_of_card_le hsub (by rw [hcard, Finset.card_range])
  apply Finset.ext
  intro v
  rw [availAt, Finset.mem_filter, Finset.mem_range, Finset.mem_singleton,
    hconsfull]
  have hmemP : v ∈ parentsList events ↔ v < 2 * N - 2 := by
    rw [← List.mem_toFinset, hPeq, Finset.mem_range]
  constructor
  · rintro ⟨hvr, hvc⟩
    rw [hmemP] at hvc
    omega
  · intro hveq
    subst hveq
    rw [hmemP]
    omega

/-- In a valid sequence the root's subtree size is `N`. -/
theorem nodeSize_root (N : Nat) (events : List MergeEvent)
    (hv : ValidMergeSeq N events) :
    nodeSize N events (2 * N - 2) = N := by
  have h := size_conservation N events hv events.length (le_refl _)
  rw [availAt_final N events hv] at h
  simpa using h

/-- C4: on a contract-conforming engine sequence with `N ≥ 2`, the encoder
(in the mode the program invokes) emits `N − 1` rows; each row's size
field is the sum of its two sides' sizes, a leaf side contributing 1 and
an internal side contributing the size stored in the row previously
emitted for that node (the referenced row index is indeed earlier); and
the final row's size is `N`. -/
theorem C4_row_sizes (N : Nat) (events : List MergeEvent)
    (hv : ValidMergeSeq N events) :
    (generateSciPyDendrogram true events N).length = N - 1
      ∧ (∀ t (ht : t < events.length),
          (((generateSciPyDendrogram true events N).getD t default).size
            = (if (events.get ⟨t, ht⟩).n1 < N then F.fin 1
               else ((generateSciPyDendrogram true events N).getD
                 ((events.get ⟨t, ht⟩).n1 - N) default).size)
              + (if (events.get ⟨t, ht⟩).n2 < N then F.fin 1
                 else ((generateSciPyDendrogram true events N).getD
                   ((events.get ⟨t, ht⟩).n2 - N) default).size))
          ∧ ((events.get ⟨t, ht⟩).n1 < N ∨ (events.get ⟨t, ht⟩).n1 - N < t)
          ∧ ((events.get ⟨t, ht⟩).n2 < N ∨ (events.get ⟨t, ht⟩).n2 - N < t))
      ∧ ((generateSciPyDendrogram true events N).getD (N - 2) default).size
          = F.fin (N : ℚ) := by
  have hrows : generateSciPyDendrogram true events N
      = encodeTrueGo N events [] := by
    rw [generateSciPyDendrogram, if_pos rfl]
  have hsz : (generateSciPyDendrogram true events N).map Row.size
      = (internalSizes N events).map (fun n : Nat => F.fin n) := by
    rw [hrows]
    exact encodeTrueGo_size_map N events [] [] rfl
  refine ⟨?_, ?_, ?_⟩
  · rw [hrows, encodeTrueGo_length]
    simp [hv.length_eq]
  · intro t ht
    have hab := hv.refs_lt t ht
    refine ⟨?_, by omega, by omega⟩
    have hA : (if (events.get ⟨t, ht⟩).n1 < N then F.fin 1
        else ((generateSciPyDendrogram true events N).getD
          ((events.get ⟨t, ht⟩).n1 - N) default).size)
        = F.fin ((nodeSize N events (events.get ⟨t, ht⟩).n1 : Nat) : ℚ) := by
      by_cases hn : (events.get ⟨t, ht⟩).n1 < N
      · rw [if_pos hn, nodeSize, if_pos hn]
        norm_num
      · rw [if_neg hn, nodeSize, if_neg hn,
          map_size_getD _ (internalSizes N events) _ hsz]
    have hB : (if (events.get ⟨t, ht⟩).n2 < N then F.fin 1
        else ((generateSciPyDendrogram true events N).getD
          ((events.get ⟨t, ht⟩).n2 - N) default).size)
        = F.fin ((nodeSize N events (events.get ⟨t, ht⟩).n2 : Nat) : ℚ) := by
      by_cases hn : (events.get ⟨t, ht⟩).n2 < N
      · rw [if_pos hn, nodeSize, if_pos hn]
        norm_num
      · rw [if_neg hn, nodeSize, if_neg hn,
          map_size_getD _ (internalSizes N events) _ hsz]
    rw [hA, hB, fin_add_natCast,
      map_size_getD _ (internalSizes N events) _ hsz,
      internalSizes_getD_step N events t ht hab.1 hab.2]
  · have hN := hv.two_le
    rw [map_size_getD _ (internalSizes N events) _ hsz]
    have hroot := nodeSize_root N events hv
    rw [nodeSize, if_neg (by omega)] at hroot
    have h2 : 2 * N - 2 - N = N - 2 := by omega
    rw [h2] at hroot
    rw [hroot]

/-- C4 (witness): for a concrete valid three-merge sequence on four
leaves, the last row's size is 4. -/
theorem C4_witness :
    ((generateSciPyDendrogram true
        [⟨0, 1, F.fin 1⟩, ⟨2, 3, F.fin 2⟩, ⟨4, 5, F.fin 9⟩] 4).getD 2
        default).size = F.fin (4 : ℚ) :=
  (C4_row_sizes 4 [⟨0, 1, F.fin 1⟩, ⟨2, 3, F.fin 2⟩, ⟨4, 5, F.fin 9⟩]
    ⟨by decide, by decide, by decide, by decide⟩).2.2

theorem foldl_add_nan (g : Nat → F) (l : List Nat) :
    l.foldl (fun s u => s + g u) F.nan = F.nan := by
  induction l with
  | nil => rfl
  | cons u l ih =>
      rw [List.foldl_cons, F.nan_add]
      exact ih

theorem foldl_add_of_nan_mem (g : Nat → F) :
    ∀ (l : List Nat) (acc : F) (k0 : Nat), k0 ∈ l → g k0 = F.nan →
      l.foldl (fun s u => s + g u) acc = F.nan
  | [], _, _, hk, _ => absurd hk (List.not_mem_nil _)
  | u :: l, acc, k0, hk, hnan => by
      rw [List.foldl_cons]
      rcases List.mem_cons.mp hk with he | he
      · rw [← he, hnan, F.add_nan]
        exact foldl_add_nan g l
      · exact foldl_add_of_nan_mem g l _ k0 he hnan

/-- A NaN coordinate on either side poisons the squared-distance sum. -/
theorem sqsum_nan (p q : Nat → F) (dim k0 : Nat) (hk : k0 < dim)
    (hnan : p k0 = F.nan ∨ q k0 = F.nan) :
    CDState.sqsum p q dim = F.nan := by
  rw [CDState.sqsum]
  apply foldl_add_of_nan_mem _ _ _ k0 (List.mem_range.mpr hk)
  rcases hnan with h | h <;> rw [h]
  · rw [F.nan_sub, F.nan_mul]
  · rw [F.sub_nan, F.nan_mul]

theorem sqeuclidean_extended_nan (st : CDState) (i j : Nat)
    (h : CDState.sqsum (st.extendedPtr i) (st.extendedPtr j) st.dimension
      = F.nan) :
    st.sqeuclidean_extended i j = .error .nanError := by
  rw [CDState.sqeuclidean_extended]
  simp [h, F.isnan]

theorem sqeuclidean_extended_error_eq (st : CDState) (i j : Nat) (e : CppExn)
    (h : st.sqeuclidean_extended i j = .error e) : e = .nanError := by
  rw [CDState.sqeuclidean_extended] at h
  by_cases hs : (CDState.sqsum (st.extendedPtr i) (st.extendedPtr j)
      st.dimension).isnan
  · simp only [hs, if_true, Except.error.injEq] at h
    exact h.symm
  · simp [hs] at h

/-- The distance scan aborts with the NaN error as soon as any scanned
pair's distance is NaN. -/
theorem collectDistances_error_of_mem (st : CDState) :
    ∀ (l : List (Nat × Nat)) (pr : Nat × Nat), pr ∈ l →
      st.sqeuclidean_extended pr.1 pr.2 = .error .nanError →
      collectDistances st l = .error .nanError
  | [], pr, hpr, _ => absurd hpr (List.not_mem_nil _)
  | pp :: ps, pr, hpr, herr => by
      rw [collectDistances]
      cases hsq : st.sqeuclidean_extended pp.1 pp.2 with
      | error e =>
          rw [sqeuclidean_extended_error_eq st pp.1 pp.2 e hsq]
      | ok d =>
          rcases List.mem_cons.mp hpr with he | he
          · rw [he] at herr
            rw [herr] at hsq
            cases hsq
          · rw [collectDistances_error_of_mem st ps pr he herr]

theorem mem_pairsOf_cons (a x y : Nat) (l : List Nat) :
    (x, y) ∈ pairsOf (a :: l) ↔ (x = a ∧ y ∈ l) ∨ (x, y) ∈ pairsOf l := by
  rw [pairsOf, List.mem_append, List.mem_map]
  constructor
  · rintro (⟨z, hz, he⟩ | h)
    · injection he with h1 h2
      exact Or.inl ⟨h1.symm, h2 ▸ hz⟩
    · exact Or.inr h
  · rintro (⟨hx, hy⟩ | h)
    · exact Or.inl ⟨y, hy, by rw [hx]⟩
    · exact Or.inr h

theorem zero_mem_pairsOf_range (N q : Nat) (h1 : 1 ≤ q) (h2 : q < N) :
    ((0 : Nat), q) ∈ pairsOf (List.range N) := by
  obtain ⟨m, rfl⟩ : ∃ m, N = m + 1 := ⟨N - 1, by omega⟩
  rw [List.range_succ_eq_map, mem_pairsOf_cons]
  left
  refine ⟨rfl, ?_⟩
  rw [List.mem_map]
  exact ⟨q - 1, List.mem_range.mpr (by omega), by omega⟩

theorem engineStep_error (st : CDState) (active : List Nat) (newNode : Nat)
    (pr : Nat × Nat) (hpr : pr ∈ pairsOf active)
    (herr : st.sqeuclidean_extended pr.1 pr.2 = .error .nanError) :
    engineStep st active newNode = .error .nanError := by
  rw [engineStep, collectDistances_error_of_mem st _ pr hpr herr]

theorem engineLoop_error_first (N steps t : Nat) (st : CDState)
    (active : List Nat) (acc : List MergeEvent)
    (herr : engineStep st active (N + t) = .error .nanError) :
    engineLoop N (steps + 1) t st active acc = .error .nanError := by
  rw [engineLoop, herr]

theorem init_extendedPtr_leaf (input : Nat → F) (Np dim v k : Nat)
    (hv : v < Np) :
    (CDState.init input Np dim).extendedPtr v k = input (v * dim + k) := by
  rw [CDState.extendedPtr, CDState.basePtr]
  simp [CDState.init, hv]

/-- C2: with an otherwise valid call (`N ≥ 2`, non-null pointers, valid
dimension, no overflow, sufficient buffer) whose data contains a NaN
coordinate, the first distance involving the poisoned point is NaN, the
computation aborts at that point with `nan_error`, and the boundary
returns `RuntimeError` — never `Success`. -/
theorem C2_nan_input_runtime_error (sqrtFn : F → F) (m : List F)
    (pointCount dimension len p k : Nat)
    (h2 : 2 ≤ pointCount) (hk : k < dimension) (hp : p < pointCount)
    (hnan : m.getD (p * dimension + k) (F.fin 0) = F.nan)
    (hmax1 : pointCount ≤ MAX_INDEX) (hmax2 : dimension ≤ MAX_INDEX)
    (hlen : (pointCount - 1) * 4 ≤ len) :
    fastcluster_compute_centroid_linkage sqrtFn (some m) pointCount dimension
        (some ()) len = (.RUNTIME_ERROR, [])
      ∧ (fastcluster_compute_centroid_linkage sqrtFn (some m) pointCount
          dimension (some ()) len).1 ≠ .SUCCESS := by
  have hq1 : 1 ≤ (if p = 0 then 1 else p) := by split <;> omega
  have hq2 : (if p = 0 then 1 else p) < pointCount := by split <;> omega
  have hst : (CDState.init
      (fun idx => ((some m).getD []).getD idx (F.fin 0)) pointCount
      dimension).sqeuclidean_extended 0 (if p = 0 then 1 else p)
      = .error .nanError := by
    apply sqeuclidean_extended_nan
    apply sqsum_nan _ _ _ k hk
    by_cases hp0 : p = 0
    · left
      rw [init_extendedPtr_leaf _ _ _ _ _ (by omega)]
      show m.getD (0 * dimension + k) (F.fin 0) = F.nan
      rw [Nat.zero_mul, ← Nat.zero_mul dimension, ← hp0]
      exact hnan
    · right
      rw [if_neg hp0, init_extendedPtr_leaf _ _ _ _ _ hp]
      exact hnan
  have hrun : engineRun (CDState.init
      (fun idx => ((some m).getD []).getD idx (F.fin 0)) pointCount
      dimension) pointCount = .error .nanError := by
    obtain ⟨s, hs⟩ : ∃ s, pointCount - 1 = s + 1 := ⟨pointCount - 2, by omega⟩
    rw [engineRun, hs]
    apply engineLoop_error_first
    exact engineStep_error _ _ _ (0, if p = 0 then 1 else p)
      (zero_mem_pairsOf_range pointCount _ hq1 hq2) hst
  have hmain : fastcluster_compute_centroid_linkage sqrtFn (some m) pointCount
      dimension (some ()) len = (.RUNTIME_ERROR, []) := by
    rw [fastcluster_compute_centroid_linkage, if_neg (by simp),
      if_neg (by omega), if_neg (by omega),
      if_neg (by simp only [not_or, not_lt]; exact ⟨hmax1, hmax2⟩),
      if_neg (by rw [if_pos (show 1 < pointCount by omega)]; omega),
      if_neg (by omega), tryBlock, hrun]
    rfl
  refine ⟨hmain, ?_⟩
  rw [hmain]
  simp

/-- C2 (witness): a 2×2 matrix with a NaN coordinate yields
`RuntimeError`. -/
theorem C2_witness :
    fastcluster_compute_centroid_linkage id
        (some [F.fin 0, F.nan, F.fin 1, F.fin 1]) 2 2 (some ()) 4
        = (.RUNTIME_ERROR, [])
      ∧ (fastcluster_compute_centroid_linkage id
          (some [F.fin 0, F.nan, F.fin 1, F.fin 1]) 2 2 (some ()) 4).1
        ≠ .SUCCESS :=
  C2_nan_input_runtime_error id [F.fin 0, F.nan, F.fin 1, F.fin 1]
    2 2 4 0 1 (by decide) (by decide) (by decide) (by decide)
    (by decide) (by decide) (by decide)

/-- C7 (witness): a concrete sorted canonical three-merge sequence is
reproduced unchanged. -/
theorem C7_witness :
    generateSciPyDendrogram false
        [⟨0, 1, F.fin 1⟩, ⟨2, 3, F.fin 2⟩, ⟨4, 5, F.fin 9⟩] 4
      = generateSciPyDendrogram true
        [⟨0, 1, F.fin 1⟩, ⟨2, 3, F.fin 2⟩, ⟨4, 5, F.fin 9⟩] 4 :=
  (C7_encoder_idempotent_on_canonical 4
    [⟨0, 1, F.fin 1⟩, ⟨2, 3, F.fin 2⟩, ⟨4, 5, F.fin 9⟩]
    ⟨by decide, by decide, by decide, by decide⟩
    (by decide) (by decide)).1

